import Mathlib

/-!
Verification of the delay-calculation engine of the ts-throttle repository.

The engine lives in src/utils/delay.ts (insertTickSorted, windowedDelay,
strictDelay, createDelayCalculator, updateTickRecord), the state record in
src/utils/state.ts, and the wrapper with option validation in src/index.ts.

Numbers (times in milliseconds, weights, limits, intervals) are modelled as
rationals: the source works with finite JavaScript numbers, and every
operation the engine performs on them (+, -, comparison, division, ceiling,
max) is exact on the rationals it ever produces.  Date.now() values are
passed as explicit `now` parameters.  The mutable state record is threaded
functionally: each operation returns the updated state.
-/

namespace Throttle

/-- A tick record `{ time, weight }` as stored in `state.strictTicks`. -/
structure Tick where
  time : ℚ
  weight : ℚ
deriving DecidableEq

/-- The resolved throttle options seen by the delay engine.  The `weight`
function itself is irrelevant to the engine (the wrapper evaluates it before
calling in); the engine only tests its presence, modelled by `hasWeight`. -/
structure Options where
  limit : ℚ
  interval : ℚ
  strict : Bool
  hasWeight : Bool
  hasOnDelay : Bool
deriving DecidableEq

/-- ThrottleState from src/utils/state.ts.  The queue maps pending delay
promises to their reject callbacks; the engine only ever reads its size, so
it is modelled by the number of entries. -/
structure ThrottleState where
  queue : ℕ
  strictTicks : List Tick
  currentTick : ℚ
  activeWeight : ℚ
deriving DecidableEq

/-- createThrottleState from src/utils/state.ts. -/
def createThrottleState : ThrottleState :=
  { queue := 0, strictTicks := [], currentTick := 0, activeWeight := 0 }

/-- Result of strictDelay: `{ delay, tickRecord? }`. -/
structure DelayResult where
  delay : ℚ
  tickRecord : Option Tick
deriving DecidableEq

/-- insertTickSorted from src/utils/delay.ts.  If the list is empty or the
new record is not earlier than the last one it is pushed at the end;
otherwise it is spliced in before the first strictly later tick.  A JS
findIndex miss returns -1 and splice(-1, 0, x) inserts before the last
element; that case is unreachable under the guard but modelled exactly. -/
def insertTickSorted (strictTicks : List Tick) (tickRecord : Tick) : List Tick :=
  match strictTicks.getLast? with
  | none => strictTicks ++ [tickRecord]
  | some last =>
    if tickRecord.time ≥ last.time then
      strictTicks ++ [tickRecord]
    else
      match strictTicks.findIdx? (fun tick => decide (tick.time > tickRecord.time)) with
      | some insertIndex =>
          strictTicks.take insertIndex ++ tickRecord :: strictTicks.drop insertIndex
      | none =>
          strictTicks.take (strictTicks.length - 1)
            ++ tickRecord :: strictTicks.drop (strictTicks.length - 1)

/-- Reference reformulation of insertTickSorted used in proofs: walk the
list and insert before the first strictly later tick (hence after all ticks
of equal time). -/
def insertAfterLE : List Tick → Tick → List Tick
  | [], tickRecord => [tickRecord]
  | tick :: rest, tickRecord =>
    if tick.time > tickRecord.time then tickRecord :: tick :: rest
    else tick :: insertAfterLE rest tickRecord

/-- windowedDelay from src/utils/delay.ts (the non-strict, fixed-window
policy).  Returns the updated state and the raw return value, which the
source computes as `state.currentTick - now` in the last two branches. -/
def windowedDelay (state : ThrottleState) (options : Options) (requestWeight now : ℚ) :
    ThrottleState × ℚ :=
  if now - state.currentTick > options.interval then
    ({ state with activeWeight := requestWeight, currentTick := now }, 0)
  else if state.activeWeight + requestWeight ≤ options.limit then
    ({ state with activeWeight := state.activeWeight + requestWeight },
      state.currentTick - now)
  else
    ({ state with currentTick := state.currentTick + options.interval, activeWeight := requestWeight },
      state.currentTick + options.interval - now)

/-- The inner helper weightInWindowAt of strictDelay: total weight of ticks
whose time lies in the half-open window (time - interval, time]. -/
def weightInWindowAt (strictTicks : List Tick) (interval time : ℚ) : ℚ :=
  strictTicks.foldl
    (fun total tick =>
      if tick.time ≤ time ∧ time - tick.time < interval then total + tick.weight
      else total)
    0

/-- Lines 45-47 of strictDelay: if the most recent tick is more than one
interval in the past, all recorded ticks are discarded. -/
def applyIdleReset (strictTicks : List Tick) (interval now : ℚ) : List Tick :=
  match strictTicks.getLast? with
  | some last => if now - last.time > interval then [] else strictTicks
  | none => strictTicks

/-- The forward-search loop of the weighted branch of strictDelay: while
the window ending at the candidate time cannot take the requested weight,
jump to the expiry time of the earliest tick overlapping that window; stop
when no tick overlaps.  Terminates because every jump permanently expires
the tick that was found. -/
def findNextExecutionTime (strictTicks : List Tick) (interval limit requestWeight t : ℚ) : ℚ :=
  if weightInWindowAt strictTicks interval t + requestWeight > limit then
    match hf : strictTicks.find?
        (fun tick => decide (tick.time ≤ t ∧ t - tick.time < interval)) with
    | some firstInWindow =>
        findNextExecutionTime strictTicks interval limit requestWeight
          (firstInWindow.time + interval)
    | none => t
  else t
termination_by (strictTicks.filter (fun tick => decide (t - tick.time < interval))).length
decreasing_by
  have hmem : firstInWindow ∈ strictTicks := List.mem_of_find?_eq_some hf
  have hfw := List.find?_some hf
  simp only [decide_eq_true_eq] at hfw
  obtain ⟨s, u, hsu⟩ := List.append_of_mem hmem
  rw [hsu, ← List.countP_eq_length_filter, ← List.countP_eq_length_filter,
    List.countP_append, List.countP_append, List.countP_cons, List.countP_cons]
  have h1 : List.countP (fun tick => decide (firstInWindow.time + interval - tick.time < interval)) s
      ≤ List.countP (fun tick => decide (t - tick.time < interval)) s := by
    apply List.countP_mono_left
    intro x _ hx
    simp only [decide_eq_true_eq] at hx ⊢
    linarith
  have h2 : List.countP (fun tick => decide (firstInWindow.time + interval - tick.time < interval)) u
      ≤ List.countP (fun tick => decide (t - tick.time < interval)) u := by
    apply List.countP_mono_left
    intro x _ hx
    simp only [decide_eq_true_eq] at hx ⊢
    linarith
  have hqf : decide (firstInWindow.time + interval - firstInWindow.time < interval) = false := by
    simp only [decide_eq_false_iff_not, not_lt]
    simp
  have hpf : decide (t - firstInWindow.time < interval) = true := by
    simp only [decide_eq_true_eq]
    exact hfw.2
  rw [hqf, hpf]
  simp only [Bool.false_eq_true, if_false, if_true]
  omega

/-- The weighted branch (lines 49-86) of strictDelay, applied after the
idle reset, on the pruned tick list. -/
def strictWeightedCore (state : ThrottleState) (options : Options) (requestWeight now : ℚ)
    (ticks : List Tick) : ThrottleState × DelayResult :=
  let pruned := ticks.dropWhile (fun tick => decide (now - tick.time ≥ options.interval))
  if weightInWindowAt pruned options.interval now + requestWeight ≤ options.limit then
    ({ state with strictTicks := insertTickSorted pruned ⟨now, requestWeight⟩ },
      ⟨0, none⟩)
  else
    let nextExecutionTime :=
      findNextExecutionTime pruned options.interval options.limit requestWeight now
    ({ state with strictTicks := insertTickSorted pruned ⟨nextExecutionTime, requestWeight⟩ },
      ⟨max 0 (nextExecutionTime - now), some ⟨nextExecutionTime, requestWeight⟩⟩)

/-- The unweighted branch (lines 88-104) of strictDelay, applied after the
idle reset. -/
def strictUnweightedCore (state : ThrottleState) (options : Options) (requestWeight now : ℚ)
    (ticks : List Tick) : ThrottleState × DelayResult :=
  let strictCapacity := max options.limit 1
  if (ticks.length : ℚ) < strictCapacity then
    ({ state with strictTicks := ticks ++ [⟨now, requestWeight⟩] }, ⟨0, none⟩)
  else
    match ticks.head?, ticks.getLast? with
    | some oldest, some mostRecent =>
      let baseTime := oldest.time + options.interval
      let minSpacing : ℚ :=
        if options.interval > 0 then ((⌈options.interval / strictCapacity⌉ : ℤ) : ℚ) else 0
      let nextExecutionTime :=
        if baseTime ≤ mostRecent.time then mostRecent.time + minSpacing else baseTime
      ({ state with strictTicks := ticks.tail ++ [⟨nextExecutionTime, requestWeight⟩] },
        ⟨max 0 (nextExecutionTime - now), some ⟨nextExecutionTime, requestWeight⟩⟩)
    | _, _ => (state, ⟨0, none⟩)

/-- strictDelay from src/utils/delay.ts: idle reset, then the weighted or
the unweighted branch depending on whether a weight function is set. -/
def strictDelay (state : ThrottleState) (options : Options) (requestWeight now : ℚ) :
    ThrottleState × DelayResult :=
  let ticks := applyIdleReset state.strictTicks options.interval now
  if options.hasWeight then strictWeightedCore state options requestWeight now ticks
  else strictUnweightedCore state options requestWeight now ticks

/-- updateTickRecord from src/utils/delay.ts.  The JS version identifies
the tick by object reference; here it is identified by its index in
strictTicks (indexOf misses are modelled by an out-of-range index). -/
def updateTickRecord (strictTicks : List Tick) (index : ℕ) (isWeighted : Bool)
    (actualTime : ℚ) : List Tick :=
  match strictTicks[index]? with
  | none => strictTicks
  | some tickRecord =>
    if isWeighted ∧ tickRecord.time ≠ actualTime then
      insertTickSorted (strictTicks.eraseIdx index) ⟨actualTime, tickRecord.weight⟩
    else
      strictTicks.set index ⟨actualTime, tickRecord.weight⟩

/-- createDelayCalculator plus the wrapper lines 96-98 of src/index.ts:
dispatch on `strict` and normalise the result to (state, waitTime, tick). -/
def getDelay (state : ThrottleState) (options : Options) (requestWeight now : ℚ) :
    ThrottleState × ℚ × Option Tick :=
  if options.strict then
    let r := strictDelay state options requestWeight now
    (r.1, r.2.delay, r.2.tickRecord)
  else
    let r := windowedDelay state options requestWeight now
    (r.1, r.2, none)

/-- Observable effects of the wrapper branch on waitTime
(src/index.ts lines 112-136): with a strictly positive waitTime the call is
suspended, onDelay fires (when configured) and the suspension is added to
the queue; otherwise the callable runs immediately. -/
structure DispatchOutcome where
  suspended : Bool
  onDelayInvoked : Bool
  queueAfter : ℕ
deriving DecidableEq

/-- The `if (waitTime > 0)` dispatch of the wrapper, src/index.ts 112-136. -/
def wrapperDispatch (queueSize : ℕ) (hasOnDelay : Bool) (waitTime : ℚ) : DispatchOutcome :=
  if waitTime > 0 then
    { suspended := true, onDelayInvoked := hasOnDelay, queueAfter := queueSize + 1 }
  else
    { suspended := false, onDelayInvoked := false, queueAfter := queueSize }

/-- A JavaScript number as far as the validation code can distinguish it. -/
inductive JSNum where
  | finite : ℚ → JSNum
  | nan : JSNum
  | posInf : JSNum
  | negInf : JSNum
deriving DecidableEq

/-- Number.isFinite. -/
def JSNum.isFinite : JSNum → Bool
  | .finite _ => true
  | _ => false

/-- The JS comparison `x < 0`. -/
def JSNum.ltZero : JSNum → Bool
  | .finite q => decide (q < 0)
  | .negInf => true
  | _ => false

/-- Outcome of evaluating the configured weight function on the call
arguments: it either throws or returns a JS number. -/
inductive WeightEval where
  | throws : WeightEval
  | returns : JSNum → WeightEval
deriving DecidableEq

/-- Outcome of one call to the throttled function, as far as the claims
are concerned.  The two rejected-with-TypeError cases keep the data that
the error message carries: the exceeds-limit message names both the
computed weight and the configured limit. -/
inductive CallResult where
  | rejectedThrown : CallResult
  | rejectedInvalidWeight : CallResult
  | rejectedExceedsLimit : (weight : ℚ) → (limit : ℚ) → CallResult
  | delayedCall : (waitTime : ℚ) → CallResult
  | executed : (waitTime : ℚ) → CallResult
deriving DecidableEq

/-- The wrapper after the weight checks passed (src/index.ts lines 96-136):
invoke the delay engine, then either suspend (entering the queue) or
execute immediately. -/
def proceedWithWeight (state : ThrottleState) (options : Options) (requestWeight now : ℚ) :
    ThrottleState × CallResult :=
  let r := getDelay state options requestWeight now
  if r.2.1 > 0 then
    ({ r.1 with queue := r.1.queue + 1 }, .delayedCall r.2.1)
  else
    (r.1, .executed r.2.1)

/-- One call through the throttled wrapper (src/index.ts lines 71-136):
compute the request weight — rejecting the call without touching any state
when the weight function throws, returns a non-finite or negative value, or
returns more than the limit — then hand the weight to the delay engine. -/
def throttledCall (state : ThrottleState) (options : Options) (ev : WeightEval) (now : ℚ) :
    ThrottleState × CallResult :=
  if options.hasWeight then
    match ev with
    | .throws => (state, .rejectedThrown)
    | .returns v =>
      if v.isFinite = false ∨ v.ltZero = true then
        (state, .rejectedInvalidWeight)
      else
        match v with
        | .finite q =>
          if q > options.limit then (state, .rejectedExceedsLimit q options.limit)
          else proceedWithWeight state options q now
        | _ => (state, .rejectedInvalidWeight)
  else proceedWithWeight state options 1 now

/-- The weight option of the raw options object: absent, a function, or
some other defined value. -/
inductive WeightField where
  | undefinedW : WeightField
  | functionW : WeightField
  | nonFunctionW : WeightField
deriving DecidableEq

/-- The resolved options object as validateOptions and the construction
code see it.  `signal = some b` means a cancellation signal is present and
`b` tells whether it is already aborted. -/
structure RawOptions where
  limit : JSNum
  interval : JSNum
  strict : Bool
  weightField : WeightField
  signal : Option Bool
deriving DecidableEq

/-- The distinct TypeError cases of validateOptions plus the abort raised
by signal.throwIfAborted. -/
inductive ConfigError where
  | limitNotFinite : ConfigError
  | intervalNotFinite : ConfigError
  | limitNegative : ConfigError
  | intervalNegative : ConfigError
  | weightNotFunction : ConfigError
  | weightWithZeroInterval : ConfigError
  | signalAborted : ConfigError
deriving DecidableEq

/-- validateOptions from src/index.ts lines 8-32, with its exact check
order; returns the first error raised, if any. -/
def validateOptions (o : RawOptions) : Option ConfigError :=
  if o.limit.isFinite = false then some .limitNotFinite
  else if o.interval.isFinite = false then some .intervalNotFinite
  else if o.limit.ltZero = true then some .limitNegative
  else if o.interval.ltZero = true then some .intervalNegative
  else if o.weightField = .nonFunctionW then some .weightNotFunction
  else if o.weightField = .functionW ∧ o.interval = .finite 0 then
    some .weightWithZeroInterval
  else none

/-- Construction-time behaviour of throttle (src/index.ts lines 53-58):
validateOptions, then signal.throwIfAborted.  `none` means the throttled
instance is created. -/
def throttleConstruct (o : RawOptions) : Option ConfigError :=
  match validateOptions o with
  | some e => some e
  | none => if o.signal = some true then some .signalAborted else none

/-- The configuration-error condition exactly as the specification words
it: non-finite or negative limit, non-finite or negative interval, a
defined non-function weight, a weight function with interval 0, or a
signal already triggered. -/
def configErrorCondition (o : RawOptions) : Prop :=
  o.limit.isFinite = false ∨ o.limit.ltZero = true ∨
    o.interval.isFinite = false ∨ o.interval.ltZero = true ∨
    o.weightField = .nonFunctionW ∨
    (o.weightField = .functionW ∧ o.interval = .finite 0) ∨
    o.signal = some true

/-- Drive the fixed-window calculator over a list of (now, weight) calls
from a fresh state, collecting the returned delays. -/
def runWindowed (options : Options) (calls : List (ℚ × ℚ)) : ThrottleState × List ℚ :=
  calls.foldl
    (fun acc call =>
      let r := windowedDelay acc.1 options call.2 call.1
      (r.1, acc.2 ++ [r.2]))
    (createThrottleState, [])

/-- Drive the strict calculator over a list of (now, weight) calls from a
fresh state, keeping the final state. -/
def runStrictCalls (options : Options) (calls : List (ℚ × ℚ)) : ThrottleState :=
  calls.foldl (fun s call => (strictDelay s options call.2 call.1).1) createThrottleState

/-- Drive the strict calculator over a list of call instants with the
default request weight 1 (no weight function configured). -/
def runStrictNows (options : Options) (nows : List ℚ) : ThrottleState :=
  nows.foldl (fun s n => (strictDelay s options 1 n).1) createThrottleState

/-! Helper lemmas about the sorted insertion routine. -/

theorem mem_of_insertAfterLE {r x : Tick} :
    ∀ {l : List Tick}, x ∈ insertAfterLE l r → x ∈ l ∨ x = r := by
  intro l
  induction l with
  | nil =>
    intro h
    simp only [insertAfterLE, List.mem_singleton] at h
    exact Or.inr h
  | cons a t ih =>
    intro h
    simp only [insertAfterLE] at h
    split at h
    · rcases List.mem_cons.mp h with h1 | h1
      · exact Or.inr h1
      · exact Or.inl h1
    · rcases List.mem_cons.mp h with h1 | h1
      · exact Or.inl (h1 ▸ List.mem_cons_self a t)
      · rcases ih h1 with h2 | h2
        · exact Or.inl (List.mem_cons_of_mem a h2)
        · exact Or.inr h2

theorem pairwise_insertAfterLE (r : Tick) :
    ∀ (l : List Tick), List.Pairwise (fun a b : Tick => a.time ≤ b.time) l →
      List.Pairwise (fun a b : Tick => a.time ≤ b.time) (insertAfterLE l r) := by
  intro l
  induction l with
  | nil =>
    intro
    simp [insertAfterLE]
  | cons a t ih =>
    intro hp
    rcases List.pairwise_cons.mp hp with ⟨ha, ht⟩
    simp only [insertAfterLE]
    split
    case isTrue h =>
      refine List.pairwise_cons.mpr ⟨?_, hp⟩
      intro x hx
      rcases List.mem_cons.mp hx with rfl | hx
      · exact le_of_lt h
      · exact le_trans (le_of_lt h) (ha x hx)
    case isFalse h =>
      refine List.pairwise_cons.mpr ⟨?_, ih ht⟩
      intro x hx
      rcases mem_of_insertAfterLE hx with hx | rfl
      · exact ha x hx
      · exact le_of_not_lt h

theorem insertAfterLE_of_le (r : Tick) :
    ∀ (l : List Tick), (∀ x ∈ l, x.time ≤ r.time) → insertAfterLE l r = l ++ [r] := by
  intro l
  induction l with
  | nil => intro; rfl
  | cons a t ih =>
    intro h
    have hna : ¬ a.time > r.time := not_lt.mpr (h a (List.mem_cons_self a t))
    simp only [insertAfterLE, if_neg hna, List.cons_append, List.cons.injEq, true_and]
    exact ih (fun x hx => h x (List.mem_cons_of_mem a hx))

theorem time_le_getLast_of_pairwise :
    ∀ (l : List Tick) (b : Tick), l.getLast? = some b →
      List.Pairwise (fun a b : Tick => a.time ≤ b.time) l → ∀ a ∈ l, a.time ≤ b.time := by
  intro l
  induction l with
  | nil => simp
  | cons c t ih =>
    intro b hb hp a ha
    cases t with
    | nil =>
      have hbc : c = b := by simpa using hb
      have hac : a = c := by simpa using ha
      rw [hac, hbc]
    | cons d u =>
      rw [List.getLast?_cons_cons] at hb
      rcases List.mem_cons.mp ha with rfl | ha
      · exact (List.pairwise_cons.mp hp).1 b (List.mem_of_mem_getLast? hb)
      · exact ih b hb (List.pairwise_cons.mp hp).2 a ha

theorem findIdx_shift (p : Tick → Bool) :
    ∀ (l : List Tick) (n : ℕ), l.findIdx? p (n + 1) = (l.findIdx? p n).map (· + 1) := by
  intro l
  induction l with
  | nil => intro n; rfl
  | cons a t ih =>
    intro n
    simp only [List.findIdx?_cons]
    split <;> simp [ih]

theorem exists_findIdx_of_mem (p : Tick → Bool) :
    ∀ (l : List Tick) (x : Tick), x ∈ l → p x = true → ∃ i, l.findIdx? p = some i := by
  intro l
  induction l with
  | nil =>
    intro x hx
    exact absurd hx (List.not_mem_nil x)
  | cons a t ih =>
    intro x hx hp
    by_cases ha : p a = true
    · exact ⟨0, by simp [List.findIdx?_cons, ha]⟩
    · rcases List.mem_cons.mp hx with rfl | hx
      · exact absurd hp ha
      · rcases ih x hx hp with ⟨j, hj⟩
        refine ⟨j + 1, ?_⟩
        simp [List.findIdx?_cons, ha, findIdx_shift, hj]

theorem insertAfterLE_eq_splice (r : Tick) :
    ∀ (l : List Tick) (i : ℕ),
      l.findIdx? (fun tick => decide (tick.time > r.time)) = some i →
      insertAfterLE l r = l.take i ++ r :: l.drop i := by
  intro l
  induction l with
  | nil =>
    intro i h
    simp [List.findIdx?] at h
  | cons a t ih =>
    intro i h
    rw [List.findIdx?_cons] at h
    split at h
    case isTrue hc =>
      have hi : i = 0 := by
        injection h with h
        exact h.symm
      subst hi
      simp only [decide_eq_true_eq] at hc
      simp [insertAfterLE, if_pos hc]
    case isFalse hc =>
      rw [findIdx_shift] at h
      rcases Option.map_eq_some'.mp h with ⟨j, hj, rfl⟩
      simp only [decide_eq_true_eq] at hc
      simp only [insertAfterLE, if_neg hc, List.take_succ_cons, List.drop_succ_cons,
        List.cons_append, List.cons.injEq, true_and]
      exact ih j hj

theorem insertTickSorted_eq_insertAfterLE (l : List Tick) (r : Tick)
    (hp : List.Pairwise (fun a b : Tick => a.time ≤ b.time) l) :
    insertTickSorted l r = insertAfterLE l r := by
  unfold insertTickSorted
  cases hl : l.getLast? with
  | none =>
    have he : l = [] := List.getLast?_eq_none_iff.mp hl
    subst he
    rfl
  | some b =>
    dsimp only
    by_cases hr : r.time ≥ b.time
    · rw [if_pos hr]
      exact (insertAfterLE_of_le r l
        (fun x hx => le_trans (time_le_getLast_of_pairwise l b hl hp x hx) hr)).symm
    · rw [if_neg hr]
      have hbp : decide (b.time > r.time) = true := by
        simp only [decide_eq_true_eq]
        exact lt_of_not_le hr
      rcases exists_findIdx_of_mem (fun tick => decide (tick.time > r.time)) l b
        (List.mem_of_mem_getLast? hl) hbp with ⟨i, hi⟩
      rw [hi]
      exact (insertAfterLE_eq_splice r l i hi).symm

theorem pairwise_insertTickSorted (l : List Tick) (r : Tick)
    (hp : List.Pairwise (fun a b : Tick => a.time ≤ b.time) l) :
    List.Pairwise (fun a b : Tick => a.time ≤ b.time) (insertTickSorted l r) := by
  rw [insertTickSorted_eq_insertAfterLE l r hp]
  exact pairwise_insertAfterLE r l hp

theorem applyIdleReset_eq_or (ticks : List Tick) (interval now : ℚ) :
    applyIdleReset ticks interval now = [] ∨ applyIdleReset ticks interval now = ticks := by
  unfold applyIdleReset
  cases ticks.getLast? with
  | none => exact Or.inr rfl
  | some last =>
    by_cases h : now - last.time > interval
    · exact Or.inl (if_pos h)
    · exact Or.inr (if_neg h)

theorem pairwise_strictWeightedCore (state : ThrottleState) (options : Options)
    (requestWeight now : ℚ) (ticks : List Tick)
    (hp : List.Pairwise (fun a b : Tick => a.time ≤ b.time) ticks) :
    List.Pairwise (fun a b : Tick => a.time ≤ b.time)
      (strictWeightedCore state options requestWeight now ticks).1.strictTicks := by
  have hpruned : List.Pairwise (fun a b : Tick => a.time ≤ b.time)
      (ticks.dropWhile (fun tick => decide (now - tick.time ≥ options.interval))) :=
    List.Pairwise.sublist (List.dropWhile_sublist _) hp
  unfold strictWeightedCore
  dsimp only
  split
  · exact pairwise_insertTickSorted _ _ hpruned
  · exact pairwise_insertTickSorted _ _ hpruned

theorem strictUnweightedCore_inv (state : ThrottleState) (options : Options)
    (requestWeight now m : ℚ) (ticks : List Tick) (hm : m ≤ now)
    (hp : List.Pairwise (fun a b : Tick => a.time ≤ b.time) ticks)
    (hb : (ticks.length : ℚ) < max options.limit 1 → ∀ tk ∈ ticks, tk.time ≤ m) :
    List.Pairwise (fun a b : Tick => a.time ≤ b.time)
        (strictUnweightedCore state options requestWeight now ticks).1.strictTicks ∧
      (((strictUnweightedCore state options requestWeight now ticks).1.strictTicks.length : ℚ)
          < max options.limit 1 →
        ∀ tk ∈ (strictUnweightedCore state options requestWeight now ticks).1.strictTicks,
          tk.time ≤ now) := by
  unfold strictUnweightedCore
  dsimp only
  split
  case isTrue hlt =>
    have hall : ∀ tk ∈ ticks, tk.time ≤ now := fun tk htk => le_trans (hb hlt tk htk) hm
    constructor
    · refine List.pairwise_append.mpr ⟨hp, List.pairwise_singleton _ _, ?_⟩
      intro a ha b hbmem
      have hb1 : b = ⟨now, requestWeight⟩ := List.mem_singleton.mp hbmem
      rw [hb1]
      exact hall a ha
    · intro _ tk htk
      rcases List.mem_append.mp htk with h | h
      · exact hall tk h
      · rw [List.mem_singleton.mp h]
  case isFalse hge =>
    have hne : ticks ≠ [] := by
      intro he
      apply hge
      rw [he]
      simp only [List.length_nil, Nat.cast_zero]
      exact lt_of_lt_of_le one_pos (le_max_right options.limit 1)
    rcases List.exists_cons_of_ne_nil hne with ⟨hd, tl, rfl⟩
    cases hgl : (hd :: tl).getLast? with
    | none => exact absurd (List.getLast?_eq_none_iff.mp hgl) (List.cons_ne_nil hd tl)
    | some mostRecent =>
      simp only [List.head?_cons, hgl, List.tail_cons]
      have hmost : ∀ a ∈ hd :: tl, a.time ≤ mostRecent.time :=
        time_le_getLast_of_pairwise _ _ hgl hp
      have hspace : (0 : ℚ) ≤
          (if options.interval > 0
            then ((⌈options.interval / max options.limit 1⌉ : ℤ) : ℚ) else 0) := by
        split
        case isTrue hI =>
          have hcap : (0 : ℚ) < max options.limit 1 :=
            lt_of_lt_of_le one_pos (le_max_right options.limit 1)
          have : (0 : ℤ) ≤ ⌈options.interval / max options.limit 1⌉ :=
            Int.ceil_nonneg (div_nonneg (le_of_lt hI) (le_of_lt hcap))
          exact_mod_cast this
        case isFalse hI => exact le_refl 0
      have hslot : mostRecent.time ≤
          (if hd.time + options.interval ≤ mostRecent.time
            then mostRecent.time +
              (if options.interval > 0
                then ((⌈options.interval / max options.limit 1⌉ : ℤ) : ℚ) else 0)
            else hd.time + options.interval) := by
        split
        case isTrue h => exact le_add_of_nonneg_right hspace
        case isFalse h => exact le_of_lt (lt_of_not_le h)
      constructor
      · refine List.pairwise_append.mpr
          ⟨(List.pairwise_cons.mp hp).2, List.pairwise_singleton _ _, ?_⟩
        intro a ha b hbmem
        rw [List.mem_singleton.mp hbmem]
        exact le_trans (hmost a (List.mem_cons_of_mem hd ha)) hslot
      · intro hlen
        exfalso
        apply hge
        simp only [List.length_append, List.length_cons, List.length_singleton] at hlen ⊢
        exact_mod_cast hlen

theorem strictDelay_unweighted_inv (options : Options) (hw : options.hasWeight = false)
    (state : ThrottleState) (m now requestWeight : ℚ) (hm : m ≤ now)
    (hp : List.Pairwise (fun a b : Tick => a.time ≤ b.time) state.strictTicks)
    (hb : (state.strictTicks.length : ℚ) < max options.limit 1 →
      ∀ tk ∈ state.strictTicks, tk.time ≤ m) :
    List.Pairwise (fun a b : Tick => a.time ≤ b.time)
        (strictDelay state options requestWeight now).1.strictTicks ∧
      (((strictDelay state options requestWeight now).1.strictTicks.length : ℚ)
          < max options.limit 1 →
        ∀ tk ∈ (strictDelay state options requestWeight now).1.strictTicks,
          tk.time ≤ now) := by
  unfold strictDelay
  rw [hw]
  simp only [Bool.false_eq_true, if_false]
  rcases applyIdleReset_eq_or state.strictTicks options.interval now with he | he <;> rw [he]
  · exact strictUnweightedCore_inv state options requestWeight now m [] hm
      (List.Pairwise.nil) (fun _ tk htk => absurd htk (List.not_mem_nil tk))
  · exact strictUnweightedCore_inv state options requestWeight now m state.strictTicks hm hp hb

theorem runStrictNows_foldl_inv (options : Options) (hw : options.hasWeight = false) :
    ∀ (nows : List ℚ) (state : ThrottleState) (m : ℚ),
      List.Chain (· ≤ ·) m nows →
      List.Pairwise (fun a b : Tick => a.time ≤ b.time) state.strictTicks →
      ((state.strictTicks.length : ℚ) < max options.limit 1 →
        ∀ tk ∈ state.strictTicks, tk.time ≤ m) →
      List.Pairwise (fun a b : Tick => a.time ≤ b.time)
        ((nows.foldl (fun s n => (strictDelay s options 1 n).1) state).strictTicks) := by
  intro nows
  induction nows with
  | nil =>
    intro state m _ hp _
    exact hp
  | cons n rest ih =>
    intro state m hchain hp hb
    rcases List.chain_cons.mp hchain with ⟨hmn, hrest⟩
    have step := strictDelay_unweighted_inv options hw state m n 1 hmn hp hb
    exact ih _ n hrest step.1 step.2

theorem set_getElem_self :
    ∀ (l : List Tick) (i : ℕ) (a : Tick), l[i]? = some a → l.set i a = l := by
  intro l
  induction l with
  | nil =>
    intro i a h
    simp at h
  | cons b t ih =>
    intro i a h
    cases i with
    | zero =>
      simp only [List.getElem?_cons_zero, Option.some.injEq] at h
      rw [← h]
      rfl
    | succ j =>
      simp only [List.getElem?_cons_succ] at h
      simp only [List.set_cons_succ, List.cons.injEq, true_and]
      exact ih j a h

theorem pairwise_updateTickRecord_weighted (l : List Tick) (i : ℕ) (actualTime : ℚ)
    (hp : List.Pairwise (fun a b : Tick => a.time ≤ b.time) l) :
    List.Pairwise (fun a b : Tick => a.time ≤ b.time)
      (updateTickRecord l i true actualTime) := by
  unfold updateTickRecord
  cases hg : l[i]? with
  | none => exact hp
  | some a =>
    dsimp only
    split
    case isTrue h =>
      exact pairwise_insertTickSorted _ _
        (List.Pairwise.sublist (List.eraseIdx_sublist l i) hp)
    case isFalse h =>
      have ht : a.time = actualTime := by
        by_contra hne
        exact h ⟨rfl, hne⟩
      have hrec : (⟨actualTime, a.weight⟩ : Tick) = a := by
        rw [← ht]
      rw [hrec, set_getElem_self l i a hg]
      exact hp

/-! Claim theorems. -/

/-- C3 (amended): in the fixed-window calculator, when the current window
has not expired (now - currentTick is at most interval) and the active
weight plus the requested weight fits the limit, the call is taken into the
current window — activeWeight grows by the requested weight and currentTick
is unchanged — and the returned delay is currentTick - now (not always 0:
it is positive when currentTick lies in the future after an overflow and
negative when now has moved past currentTick). -/
theorem windowed_accept_branch (state : ThrottleState) (options : Options)
    (requestWeight now : ℚ)
    (h1 : ¬ now - state.currentTick > options.interval)
    (h2 : state.activeWeight + requestWeight ≤ options.limit) :
    windowedDelay state options requestWeight now =
      ({ state with activeWeight := state.activeWeight + requestWeight },
        state.currentTick - now) := by
  unfold windowedDelay
  rw [if_neg h1, if_pos h2]

/-- C3 witness: the accept branch at a fresh state. -/
theorem windowed_accept_branch_witness :
    windowedDelay createThrottleState ⟨2, 1000, false, false, false⟩ 1 0 =
      ({ createThrottleState with
          activeWeight := createThrottleState.activeWeight + 1 },
        createThrottleState.currentTick - 0) :=
  windowed_accept_branch createThrottleState ⟨2, 1000, false, false, false⟩ 1 0
    (by norm_num [createThrottleState]) (by norm_num [createThrottleState])

/-- C3 counterexample: a reachable state (three calls at t = 0 with
limit 2, interval 1000) satisfying both hypotheses of the claim for a
fourth call at t = 0, on which the calculator returns 1000, not 0. -/
theorem windowed_accept_zero_counterexample :
    ¬ ((0:ℚ) - (runWindowed ⟨2, 1000, false, false, false⟩
        [(0,1),(0,1),(0,1)]).1.currentTick > (1000:ℚ)) ∧
    (runWindowed ⟨2, 1000, false, false, false⟩
        [(0,1),(0,1),(0,1)]).1.activeWeight + 1 ≤ (2:ℚ) ∧
    (windowedDelay (runWindowed ⟨2, 1000, false, false, false⟩ [(0,1),(0,1),(0,1)]).1
        ⟨2, 1000, false, false, false⟩ 1 0).2 = 1000 ∧
    (1000 : ℚ) ≠ 0 := by
  norm_num [runWindowed, windowedDelay, createThrottleState]

/-- C4 (amended): the fixed-window calculator never returns less than
-interval (for a non-negative interval); it does return negative values,
which the wrapper treats as immediate execution, so the stated
non-negativity contract does not hold as written. -/
theorem windowed_delay_lower_bound (state : ThrottleState) (options : Options)
    (requestWeight now : ℚ) (hI : 0 ≤ options.interval) :
    -options.interval ≤ (windowedDelay state options requestWeight now).2 := by
  unfold windowedDelay
  by_cases h1 : now - state.currentTick > options.interval
  · rw [if_pos h1]
    dsimp only
    linarith
  · rw [if_neg h1]
    have h1' : now - state.currentTick ≤ options.interval := not_lt.mp h1
    by_cases h2 : state.activeWeight + requestWeight ≤ options.limit
    · rw [if_pos h2]
      dsimp only
      linarith
    · rw [if_neg h2]
      dsimp only
      linarith

/-- C4 witness: the lower bound instantiated at a fresh state. -/
theorem windowed_delay_lower_bound_witness :
    -((⟨2, 1000, false, false, false⟩ : Options).interval) ≤
      (windowedDelay createThrottleState ⟨2, 1000, false, false, false⟩ 1 0).2 :=
  windowed_delay_lower_bound createThrottleState ⟨2, 1000, false, false, false⟩ 1 0
    (by norm_num)

/-- C4 counterexample: from a fresh state (limit 2, interval 1000), a call
at t = 0 followed by a call at t = 500 makes the calculator return -500,
a negative number of milliseconds. -/
theorem windowed_negative_delay_counterexample :
    (windowedDelay
        (windowedDelay createThrottleState ⟨2, 1000, false, false, false⟩ 1 0).1
        ⟨2, 1000, false, false, false⟩ 1 500).2 = -500 ∧
    ((-500 : ℚ) < 0) := by
  norm_num [windowedDelay, createThrottleState]

/-- C5: with limit 2 and interval 1000, six calls fired at t = 0 from a
fresh state receive the delays 0, 0, 1000, 1000, 2000, 2000, so they
settle at t = 0, t = 1000 and t = 2000 in pairs. -/
theorem windowed_six_call_scenario :
    (runWindowed ⟨2, 1000, false, false, false⟩
        [(0,1),(0,1),(0,1),(0,1),(0,1),(0,1)]).2 =
      [0, 0, 1000, 1000, 2000, 2000] := by
  norm_num [runWindowed, windowedDelay, createThrottleState]

/-- C10: the wrapper suspends a call, fires onDelay and records the
suspension in the queue only for a strictly positive wait time; a zero or
negative wait time executes immediately, does not invoke onDelay and
leaves the queue untouched. -/
theorem wrapper_nonpositive_immediate (queueSize : ℕ) (hasOnDelay : Bool) (waitTime : ℚ) :
    (waitTime ≤ 0 →
      wrapperDispatch queueSize hasOnDelay waitTime =
        { suspended := false, onDelayInvoked := false, queueAfter := queueSize }) ∧
    (0 < waitTime →
      wrapperDispatch queueSize hasOnDelay waitTime =
        { suspended := true, onDelayInvoked := hasOnDelay, queueAfter := queueSize + 1 }) := by
  constructor
  · intro h
    unfold wrapperDispatch
    rw [if_neg (not_lt.mpr h)]
  · intro h
    unfold wrapperDispatch
    rw [if_pos h]

/-- C10 witness: both dispatch branches at concrete wait times. -/
theorem wrapper_nonpositive_immediate_witness :
    wrapperDispatch 0 true (-500) =
      { suspended := false, onDelayInvoked := false, queueAfter := 0 } ∧
    wrapperDispatch 0 true 5 =
      { suspended := true, onDelayInvoked := true, queueAfter := 1 } :=
  ⟨(wrapper_nonpositive_immediate 0 true (-500)).1 (by norm_num),
    (wrapper_nonpositive_immediate 0 true 5).2 (by norm_num)⟩

/-- C7: when a weight function is configured and it throws, or returns a
non-finite or negative value, or returns more than the limit, that call is
rejected — with the exceeds-limit rejection carrying both the computed
weight and the configured limit — the delay engine is never reached and
the whole throttle state is returned unchanged. -/
theorem weight_error_isolated (state : ThrottleState) (options : Options) (now : ℚ)
    (hW : options.hasWeight = true) :
    (throttledCall state options .throws now = (state, .rejectedThrown)) ∧
    (∀ v : JSNum, v.isFinite = false →
      throttledCall state options (.returns v) now = (state, .rejectedInvalidWeight)) ∧
    (∀ q : ℚ, q < 0 →
      throttledCall state options (.returns (.finite q)) now =
        (state, .rejectedInvalidWeight)) ∧
    (∀ q : ℚ, 0 ≤ q → options.limit < q →
      throttledCall state options (.returns (.finite q)) now =
        (state, .rejectedExceedsLimit q options.limit)) := by
  refine ⟨?_, ?_, ?_, ?_⟩
  · simp [throttledCall, hW]
  · intro v hv
    cases v <;> simp_all [throttledCall, JSNum.isFinite]
  · intro q hq
    simp [throttledCall, hW, JSNum.isFinite, JSNum.ltZero, hq]
  · intro q hq0 hql
    simp [throttledCall, hW, JSNum.isFinite, JSNum.ltZero, not_lt.mpr hq0, hql,
      le_of_lt hql]

/-- C7 witness: all four rejection cases at a concrete state and options. -/
theorem weight_error_isolated_witness :
    (throttledCall createThrottleState ⟨10, 100, false, true, false⟩ .throws 0 =
      (createThrottleState, .rejectedThrown)) ∧
    (throttledCall createThrottleState ⟨10, 100, false, true, false⟩ (.returns .nan) 0 =
      (createThrottleState, .rejectedInvalidWeight)) ∧
    (throttledCall createThrottleState ⟨10, 100, false, true, false⟩
        (.returns (.finite (-1))) 0 = (createThrottleState, .rejectedInvalidWeight)) ∧
    (throttledCall createThrottleState ⟨10, 100, false, true, false⟩
        (.returns (.finite 11)) 0 =
      (createThrottleState, .rejectedExceedsLimit 11 10)) :=
  ⟨(weight_error_isolated createThrottleState ⟨10, 100, false, true, false⟩ 0 rfl).1,
    (weight_error_isolated createThrottleState ⟨10, 100, false, true, false⟩ 0 rfl).2.1
      .nan rfl,
    (weight_error_isolated createThrottleState ⟨10, 100, false, true, false⟩ 0 rfl).2.2.1
      (-1) (by norm_num),
    (weight_error_isolated createThrottleState ⟨10, 100, false, true, false⟩ 0 rfl).2.2.2
      11 (by norm_num) (by norm_num)⟩

/-- C8: construction throws — and no instance is created — exactly when
the resolved options have a non-finite or negative limit, a non-finite or
negative interval, a defined weight that is not a function, a weight
function together with interval 0, or an already-triggered signal. -/
theorem construction_validation_iff (o : RawOptions) :
    (throttleConstruct o).isSome = true ↔ configErrorCondition o := by
  rcases o with ⟨lim, itv, strict, wf, sig⟩
  simp only [throttleConstruct, validateOptions, configErrorCondition]
  cases lim <;> cases itv <;> cases wf <;> rcases sig with _ | b <;>
    simp_all [JSNum.isFinite, JSNum.ltZero] <;>
    split_ifs <;> simp_all

/-- C8 witness: a signal already triggered at construction makes
construction fail. -/
theorem construction_validation_iff_witness :
    (throttleConstruct ⟨.finite 2, .finite 1000, false, .undefinedW, some true⟩).isSome
      = true :=
  (construction_validation_iff
      ⟨.finite 2, .finite 1000, false, .undefinedW, some true⟩).mpr
    (by simp [configErrorCondition])

theorem findNextExecutionTime_step (strictTicks : List Tick)
    (interval limit requestWeight t : ℚ) (firstInWindow : Tick)
    (hgt : weightInWindowAt strictTicks interval t + requestWeight > limit)
    (hfind : strictTicks.find?
      (fun tick => decide (tick.time ≤ t ∧ t - tick.time < interval))
      = some firstInWindow) :
    findNextExecutionTime strictTicks interval limit requestWeight t =
      findNextExecutionTime strictTicks interval limit requestWeight
        (firstInWindow.time + interval) := by
  rw [findNextExecutionTime.eq_def]
  rw [if_pos hgt]
  split
  case _ first heq =>
    rw [hfind] at heq
    injection heq with heq
    rw [heq]
  case _ heq =>
    rw [hfind] at heq
    exact absurd heq (by simp)

theorem findNextExecutionTime_stop (strictTicks : List Tick)
    (interval limit requestWeight t : ℚ)
    (hle : ¬ weightInWindowAt strictTicks interval t + requestWeight > limit) :
    findNextExecutionTime strictTicks interval limit requestWeight t = t := by
  rw [findNextExecutionTime.eq_def]
  rw [if_neg hle]

theorem minSpacing_nonneg (options : Options) :
    (0 : ℚ) ≤ (if options.interval > 0
      then ((⌈options.interval / max options.limit 1⌉ : ℤ) : ℚ) else 0) := by
  split
  case isTrue hI =>
    have hcap : (0 : ℚ) < max options.limit 1 :=
      lt_of_lt_of_le one_pos (le_max_right options.limit 1)
    have h : (0 : ℤ) ≤ ⌈options.interval / max options.limit 1⌉ :=
      Int.ceil_nonneg (div_nonneg (le_of_lt hI) (le_of_lt hcap))
    exact_mod_cast h
  case isFalse hI => exact le_refl 0

/-- C9: in both strict sub-modes, when ticks are recorded but the latest
one is more than one interval in the past, the calculator drops every
recorded tick, lets the call go immediately with delay 0, and records it
as the only tick, at time now (for a request weight within the limit, as
the wrapper guarantees). -/
theorem strict_idle_reset_admission (state : ThrottleState) (options : Options)
    (requestWeight now : ℚ) (lastTick : Tick)
    (hlast : state.strictTicks.getLast? = some lastTick)
    (hidle : now - lastTick.time > options.interval)
    (hwl : requestWeight ≤ options.limit) :
    strictDelay state options requestWeight now =
      ({ state with strictTicks := [⟨now, requestWeight⟩] }, ⟨0, none⟩) := by
  have hreset : applyIdleReset state.strictTicks options.interval now = [] := by
    unfold applyIdleReset
    rw [hlast]
    dsimp only
    rw [if_pos hidle]
  unfold strictDelay
  rw [hreset]
  by_cases hw : options.hasWeight = true
  · rw [if_pos hw]
    unfold strictWeightedCore
    simp only [List.dropWhile_nil]
    rw [if_pos (show weightInWindowAt [] options.interval now + requestWeight ≤
        options.limit by
      simp only [weightInWindowAt, List.foldl_nil, zero_add]
      exact hwl)]
    rfl
  · rw [if_neg hw]
    unfold strictUnweightedCore
    rw [if_pos (show ((List.length ([] : List Tick) : ℚ)) < max options.limit 1 by
      simp only [List.length_nil, Nat.cast_zero]
      exact lt_of_lt_of_le one_pos (le_max_right options.limit 1))]
    rfl

/-- C9 witness: one stale tick at time 0, a call at time 1000 with
interval 100 — all ticks are dropped and the call goes through at once. -/
theorem strict_idle_reset_admission_witness :
    strictDelay ⟨0, [⟨0, 1⟩], 0, 0⟩ ⟨2, 100, true, false, false⟩ 1 1000 =
      ({ (⟨0, [⟨0, 1⟩], 0, 0⟩ : ThrottleState) with strictTicks := [⟨1000, 1⟩] },
        ⟨0, none⟩) :=
  strict_idle_reset_admission ⟨0, [⟨0, 1⟩], 0, 0⟩ ⟨2, 100, true, false, false⟩ 1 1000
    ⟨0, 1⟩ rfl (by norm_num) (by norm_num)

/-- C2 (amended): with the tick store at capacity and no idle reset, the
strict unweighted calculator computes minSpacing = ceil(interval /
capacity) for a positive interval (0 otherwise) and schedules the next
slot at mostRecent + minSpacing when oldest + interval is at most
mostRecent, and at oldest + interval otherwise; the oldest tick is
evicted, the new tick appended, the returned delay is
max(0, slot - now), and the slot is never earlier than mostRecent.  The
max(oldest + interval, mostRecent + minSpacing) formula of the claim, and
with it the global minSpacing gap between consecutive slots, does not
hold. -/
theorem strict_unweighted_saturated_slot (state : ThrottleState) (options : Options)
    (requestWeight now : ℚ) (oldest mostRecent : Tick)
    (hw : options.hasWeight = false)
    (hhead : state.strictTicks.head? = some oldest)
    (hlast : state.strictTicks.getLast? = some mostRecent)
    (hidle : ¬ now - mostRecent.time > options.interval)
    (hcap : ¬ (state.strictTicks.length : ℚ) < max options.limit 1) :
    (let minSpacing : ℚ := if options.interval > 0
        then ((⌈options.interval / max options.limit 1⌉ : ℤ) : ℚ) else 0
     let nextExecutionTime := if oldest.time + options.interval ≤ mostRecent.time
        then mostRecent.time + minSpacing else oldest.time + options.interval
     strictDelay state options requestWeight now =
        ({ state with
            strictTicks := state.strictTicks.tail ++ [⟨nextExecutionTime, requestWeight⟩] },
          ⟨max 0 (nextExecutionTime - now), some ⟨nextExecutionTime, requestWeight⟩⟩) ∧
      mostRecent.time ≤ nextExecutionTime) := by
  have hreset : applyIdleReset state.strictTicks options.interval now
      = state.strictTicks := by
    unfold applyIdleReset
    rw [hlast]
    dsimp only
    rw [if_neg hidle]
  dsimp only
  constructor
  · unfold strictDelay
    rw [hreset, hw]
    simp only [Bool.false_eq_true, if_false]
    unfold strictUnweightedCore
    dsimp only
    rw [if_neg hcap]
    simp only [hhead, hlast]
  · split
    case isTrue h => exact le_add_of_nonneg_right (minSpacing_nonneg options)
    case isFalse h => exact le_of_lt (lt_of_not_le h)

/-- C2 witness: ticks at 0 and 900, capacity 2, interval 1000, a call at
950: the computed slot is oldest + interval = 1000 with delay 50. -/
theorem strict_unweighted_saturated_slot_witness :
    strictDelay ⟨0, [⟨0, 1⟩, ⟨900, 1⟩], 0, 0⟩ ⟨2, 1000, true, false, false⟩ 1 950 =
      (⟨0, [⟨900, 1⟩, ⟨1000, 1⟩], 0, 0⟩, ⟨50, some ⟨1000, 1⟩⟩) ∧
    (900 : ℚ) ≤ 1000 := by
  have h := strict_unweighted_saturated_slot ⟨0, [⟨0, 1⟩, ⟨900, 1⟩], 0, 0⟩
    ⟨2, 1000, true, false, false⟩ 1 950 ⟨0, 1⟩ ⟨900, 1⟩ rfl rfl rfl
    (by norm_num) (by push_cast; norm_num)
  dsimp only at h
  norm_num [max_def] at h ⊢
  exact h

/-- C2 counterexample: the same reachable scenario — ticks recorded at 0
and 900 (limit 2, interval 1000, so minSpacing = ceil(1000/2) = 500), a
third call at 950.  The code schedules the slot at 1000, but
max(oldest + interval, mostRecent + minSpacing) = max(1000, 1400) = 1400,
and the gap to the previous tick is 100 < 500, refuting both the slot
formula and the minimum-spacing guarantee of the claim. -/
theorem strict_unweighted_slot_counterexample :
    (runStrictNows ⟨2, 1000, true, false, false⟩ [0, 900]).strictTicks =
      [⟨0, 1⟩, ⟨900, 1⟩] ∧
    (strictDelay (runStrictNows ⟨2, 1000, true, false, false⟩ [0, 900])
        ⟨2, 1000, true, false, false⟩ 1 950).2 = ⟨50, some ⟨1000, 1⟩⟩ ∧
    (⌈(1000 : ℚ) / max (2 : ℚ) 1⌉ : ℤ) = 500 ∧
    max ((0 : ℚ) + 1000) (900 + 500) = 1400 ∧
    (1000 : ℚ) ≠ 1400 ∧
    (1000 : ℚ) - 900 < 500 := by
  have hticks : (runStrictNows ⟨2, 1000, true, false, false⟩ [0, 900]).strictTicks =
      [⟨0, 1⟩, ⟨900, 1⟩] := by
    norm_num [runStrictNows, strictDelay, applyIdleReset, strictUnweightedCore,
      createThrottleState]
  have hceil : (⌈(1000 : ℚ) / max (2 : ℚ) 1⌉ : ℤ) = 500 := by
    rw [show (1000 : ℚ) / max (2 : ℚ) 1 = ((500 : ℤ) : ℚ) by
      rw [max_eq_left (by norm_num : (1 : ℚ) ≤ 2)]
      norm_num]
    exact Int.ceil_intCast 500
  refine ⟨hticks, ?_, hceil, by norm_num [max_def], by norm_num, by norm_num⟩
  have hstate : runStrictNows ⟨2, 1000, true, false, false⟩ [0, 900] =
      ⟨0, [⟨0, 1⟩, ⟨900, 1⟩], 0, 0⟩ := by
    norm_num [runStrictNows, strictDelay, applyIdleReset, strictUnweightedCore,
      createThrottleState]
  rw [hstate]
  norm_num [strictDelay, applyIdleReset, strictUnweightedCore, max_def]

/-- C6 (amended): strictTicks stays sorted by time (ascending, with the
insertion routine placing a new tick after any equal-time ticks) across
every weighted strict delay calculation from any sorted state, across
every unweighted strict delay sequence from the empty state with
non-decreasing call instants, and across weighted tick correction.  The
unweighted tick correction, which rewrites the fired tick time in place
without re-sorting, is the one operation that can break the order (see the
counterexample), so the claim holds only with it excluded. -/
theorem strict_ticks_sorted_preserved :
    (∀ (state : ThrottleState) (options : Options) (requestWeight now : ℚ),
      options.hasWeight = true →
      List.Pairwise (fun a b : Tick => a.time ≤ b.time) state.strictTicks →
      List.Pairwise (fun a b : Tick => a.time ≤ b.time)
        (strictDelay state options requestWeight now).1.strictTicks) ∧
    (∀ (options : Options) (m : ℚ) (nows : List ℚ),
      options.hasWeight = false → List.Chain (· ≤ ·) m nows →
      List.Pairwise (fun a b : Tick => a.time ≤ b.time)
        (runStrictNows options nows).strictTicks) ∧
    (∀ (l : List Tick) (i : ℕ) (actualTime : ℚ),
      List.Pairwise (fun a b : Tick => a.time ≤ b.time) l →
      List.Pairwise (fun a b : Tick => a.time ≤ b.time)
        (updateTickRecord l i true actualTime)) := by
  refine ⟨?_, ?_, ?_⟩
  · intro state options requestWeight now hW hp
    unfold strictDelay
    rw [if_pos hW]
    apply pairwise_strictWeightedCore
    rcases applyIdleReset_eq_or state.strictTicks options.interval now with he | he <;>
      rw [he]
    · exact List.Pairwise.nil
    · exact hp
  · intro options m nows hw hchain
    unfold runStrictNows
    exact runStrictNows_foldl_inv options hw nows createThrottleState m hchain
      List.Pairwise.nil (fun _ tk htk => absurd htk (List.not_mem_nil tk))
  · intro l i actualTime hp
    exact pairwise_updateTickRecord_weighted l i actualTime hp

/-- C6 witness: the three preserved cases at concrete inputs. -/
theorem strict_ticks_sorted_preserved_witness :
    List.Pairwise (fun a b : Tick => a.time ≤ b.time)
      (strictDelay ⟨0, [⟨0, 2⟩], 0, 0⟩ ⟨10, 100, true, true, false⟩ 3 7).1.strictTicks ∧
    List.Pairwise (fun a b : Tick => a.time ≤ b.time)
      (runStrictNows ⟨2, 1000, true, false, false⟩ [0, 5]).strictTicks ∧
    List.Pairwise (fun a b : Tick => a.time ≤ b.time)
      (updateTickRecord [⟨1, 1⟩, ⟨2, 1⟩] 0 true 5) :=
  ⟨strict_ticks_sorted_preserved.1 ⟨0, [⟨0, 2⟩], 0, 0⟩ ⟨10, 100, true, true, false⟩ 3 7
      rfl (by decide),
    strict_ticks_sorted_preserved.2.1 ⟨2, 1000, true, false, false⟩ 0 [0, 5] rfl
      (by norm_num [List.chain_cons]),
    strict_ticks_sorted_preserved.2.2 [⟨1, 1⟩, ⟨2, 1⟩] 0 5 (by decide)⟩

/-- C6 counterexample: unweighted mode, limit 2, interval 1000, four calls
at t = 0 leave scheduled ticks at 1000 and 1500; when the 1000 tick fires
late, at 1600, the unweighted tick correction rewrites its time in place
and the store [1600, 1500] is no longer sorted. -/
theorem strict_ticks_sorted_counterexample :
    updateTickRecord
        (runStrictNows ⟨2, 1000, true, false, false⟩ [0, 0, 0, 0]).strictTicks
        0 false 1600 = [⟨1600, 1⟩, ⟨1500, 1⟩] ∧
    ¬ List.Pairwise (fun a b : Tick => a.time ≤ b.time)
      (updateTickRecord
        (runStrictNows ⟨2, 1000, true, false, false⟩ [0, 0, 0, 0]).strictTicks
        0 false 1600) := by
  have hceil : ((⌈(1000 : ℚ) / max (2 : ℚ) 1⌉ : ℤ) : ℚ) = 500 := by
    rw [show (1000 : ℚ) / max (2 : ℚ) 1 = ((500 : ℤ) : ℚ) by
      rw [max_eq_left (by norm_num : (1 : ℚ) ≤ 2)]
      norm_num]
    rw [Int.ceil_intCast]
    norm_num
  have hticks : (runStrictNows ⟨2, 1000, true, false, false⟩ [0, 0, 0, 0]).strictTicks =
      [⟨1000, 1⟩, ⟨1500, 1⟩] := by
    norm_num [runStrictNows, strictDelay, applyIdleReset, strictUnweightedCore,
      createThrottleState, hceil, max_def]
  rw [hticks]
  constructor
  · norm_num [updateTickRecord]
  · norm_num [updateTickRecord]

/-- C1: the strict weighted policy does not keep every trailing window
within the limit.  With limit 10 and interval 100, the calls
(t = 0, w = 5), (t = 51, w = 6), (t = 60, w = 5) — every weight finite,
non-negative and within the limit — leave ticks at 0, 60 and 100, and the
window (0, 100] then carries weight 5 + 6 = 11 > 10: the third call is let
through at once because the engine only tests the window ending at now
(and, when searching, the window ending at the candidate), never windows
ending at already-scheduled future ticks. -/
theorem strict_weighted_window_bound_violated :
    runStrictCalls ⟨10, 100, true, true, false⟩ [(0, 5), (51, 6), (60, 5)] =
      ⟨0, [⟨0, 5⟩, ⟨60, 5⟩, ⟨100, 6⟩], 0, 0⟩ ∧
    weightInWindowAt [⟨0, 5⟩, ⟨60, 5⟩, ⟨100, 6⟩] 100 100 = 11 ∧
    ¬ weightInWindowAt [⟨0, 5⟩, ⟨60, 5⟩, ⟨100, 6⟩] 100 100 ≤
        (⟨10, 100, true, true, false⟩ : Options).limit := by
  have hfind : List.find?
      (fun tick => decide (tick.time ≤ (51 : ℚ) ∧ (51 : ℚ) - tick.time < 100))
      [(⟨0, 5⟩ : Tick)] = some ⟨0, 5⟩ := by
    norm_num [List.find?]
  have hnet : findNextExecutionTime [(⟨0, 5⟩ : Tick)] 100 10 6 51 = 100 := by
    rw [findNextExecutionTime_step [(⟨0, 5⟩ : Tick)] 100 10 6 51 ⟨0, 5⟩
      (by norm_num [weightInWindowAt]) hfind]
    rw [show (⟨0, 5⟩ : Tick).time + (100 : ℚ) = 100 by norm_num]
    exact findNextExecutionTime_stop [(⟨0, 5⟩ : Tick)] 100 10 6 100
      (by norm_num [weightInWindowAt])
  have hc1 : strictDelay ⟨0, [], 0, 0⟩ ⟨10, 100, true, true, false⟩ 5 0 =
      (⟨0, [⟨0, 5⟩], 0, 0⟩, ⟨0, none⟩) := by
    norm_num [strictDelay, applyIdleReset, strictWeightedCore, weightInWindowAt,
      insertTickSorted]
  have hc2 : strictDelay ⟨0, [⟨0, 5⟩], 0, 0⟩ ⟨10, 100, true, true, false⟩ 6 51 =
      (⟨0, [⟨0, 5⟩, ⟨100, 6⟩], 0, 0⟩, ⟨49, some ⟨100, 6⟩⟩) := by
    norm_num [strictDelay, applyIdleReset, strictWeightedCore, weightInWindowAt,
      insertTickSorted, hnet, max_def]
  have hc3 : strictDelay ⟨0, [⟨0, 5⟩, ⟨100, 6⟩], 0, 0⟩ ⟨10, 100, true, true, false⟩ 5 60 =
      (⟨0, [⟨0, 5⟩, ⟨60, 5⟩, ⟨100, 6⟩], 0, 0⟩, ⟨0, none⟩) := by
    norm_num [strictDelay, applyIdleReset, strictWeightedCore, weightInWindowAt,
      insertTickSorted, List.findIdx?_cons, max_def]
  refine ⟨?_, by norm_num [weightInWindowAt], by norm_num [weightInWindowAt]⟩
  unfold runStrictCalls createThrottleState
  simp only [List.foldl_cons, List.foldl_nil]
  simp only [hc1]
  simp only [hc2]
  simp only [hc3]

end Throttle
